import Mathlib

/-!
Shallow embedding of the annotation reconciliation engine of the
tics-github-action repository (source file src/github/posting/annotations.ts),
together with theorems settling the specification claims about it.

The TypeScript source operates on untyped (any) JSON objects and mutates the
input array of findings in place during grouping.  The embedding makes that
explicit: the findings array is a store (a function from position to record)
threaded through the grouping fold, and the network calls issued by the
posting functions are recorded as an explicit call trace.
-/

/-- The record of one static-analysis finding, as supplied by the viewer.
Modelled from the spec: the fetch of annotations is not part of the sources
under verification, so the field layout comes from the spec data model
(fullPath, line, rule, level, category, type, msg, count).  In particular the
record has no field named message; the source comparison
a.message === annotation.message therefore compares undefined with undefined
and is identically true, so it is dropped from the embedded key check. -/
structure Annot where
  fullPath : String
  line : Int
  rule : String
  level : String
  category : String
  type : String
  msg : String
  count : Int
deriving DecidableEq

instance : Inhabited Annot :=
  ⟨⟨"", 0, "", "", "", "", "", 0⟩⟩

/-- Review comment candidate produced by createReviewComments: body text,
repository-relative path and line. -/
structure ReviewComment where
  body : String
  path : String
  line : Int
deriving DecidableEq

/-- A previously posted review comment as returned by the list call: its id
and its body. -/
structure PostedComment where
  id : Int
  body : String
deriving DecidableEq

/-- The two global configuration fields read by createReviewComments
(ticsConfig.projectName and ticsConfig.branchName). -/
structure TicsConfig where
  projectName : String
  branchName : String
deriving DecidableEq

/-- Lexicographic strict comparison of char lists, the order JavaScript uses
for its string < and > operators (code-unit order, which agrees with
codepoint order on the basic multilingual plane and in particular on ASCII
paths). -/
def charsLt : List Char → List Char → Bool
  | [], [] => false
  | [], _ :: _ => true
  | _ :: _, [] => false
  | a :: as, b :: bs => if a < b then true else if b < a then false else charsLt as bs

/-- JavaScript string comparison a < b, on the underlying characters. -/
def strLtB (a b : String) : Bool :=
  charsLt a.data b.data

/-- Test whether the pattern is an initial block of the character list. -/
def charsLeads : List Char → List Char → Bool
  | [], _ => true
  | _ :: _, [] => false
  | p :: ps, c :: cs => p == c && charsLeads ps cs

/-- Index of the leftmost occurrence of the pattern in the character list,
as JavaScript indexOf computes it; none when the pattern does not occur. -/
def charsIndexOf (pat : List Char) : List Char → Option Nat
  | [] => if pat = [] then some 0 else none
  | c :: cs =>
    if charsLeads pat (c :: cs) then some 0
    else (charsIndexOf pat cs).map (· + 1)

/-- JavaScript s.includes(sub): substring containment.  The empty search
string is contained in every string. -/
def substrIncludes (s sub : String) : Bool :=
  (charsIndexOf sub.data s.data).isSome

/-- JavaScript s.replace(pat, ""), for a string pattern: removes the first
occurrence of pat only (String.replace in Lean would remove all
occurrences).  When the pattern does not occur the string is returned
unchanged. -/
def replaceFirst (s pat : String) : String :=
  match charsIndexOf pat.data s.data with
  | none => s
  | some i => String.mk (s.data.take i ++ s.data.drop (i + pat.data.length))

/-- The duplicate-key test of findAnnotationInList in the source: fullPath,
type, line, rule, level and category must all be equal.  The source also
compares the message fields; on the spec data model that field does not
exist, the comparison is undefined === undefined, identically true, and is
dropped (see the Annot doc comment). -/
def dupKeyB (a b : Annot) : Bool :=
  a.fullPath == b.fullPath &&
  a.type == b.type &&
  a.line == b.line &&
  a.rule == b.rule &&
  a.level == b.level &&
  a.category == b.category

/-- findAnnotationInList from the source: index of the first entry of the
grouped list whose key fields equal those of ann, or none (the source
returns -1).  The grouped list holds positions into the findings store, as
the JavaScript array holds references into the input array. -/
def findAnnotationInList (store : Nat → Annot) (ids : List Nat) (ann : Annot) : Option Nat :=
  match ids with
  | [] => none
  | i :: rest =>
    if dupKeyB (store i) ann then some 0
    else (findAnnotationInList store rest ann).map (· + 1)

/-- The scope filter of createReviewComments:
changedFiles.find(c => annotation.fullPath.includes(c)) must be truthy.
find returns the first matching element; when that element is the empty
string the result is falsy in JavaScript and the annotation is dropped even
though it matched. -/
def scopeCheck (changedFiles : List String) (fullPath : String) : Bool :=
  match changedFiles.find? (fun c => substrIncludes fullPath c) with
  | none => false
  | some c => !(c == "")

/-- One step of the forEach fold of createReviewComments, processing the
finding at position j of the store.  State: the store of findings (mutated
in place by the source) and the list of grouped positions.  On a duplicate
at grouped position k, the source increments annotations[k].count — note:
position k of the input array, not groupedAnnotations[k]. -/
def groupStep (changedFiles : List String) (st : (Nat → Annot) × List Nat) (j : Nat) :
    (Nat → Annot) × List Nat :=
  let store := st.1
  let ann := store j
  if scopeCheck changedFiles ann.fullPath then
    match findAnnotationInList store st.2 ann with
    | none => (store, st.2 ++ [j])
    | some k =>
      (fun i => if i = k then
          let t := store k
          { t with count := t.count + ann.count }
        else store i,
       st.2)
  else st

/-- The grouping fold of createReviewComments run over the whole input list:
returns the final store and the grouped positions in push order. -/
def runGrouping (anns : List Annot) (changedFiles : List String) :
    (Nat → Annot) × List Nat :=
  (List.range anns.length).foldl (groupStep changedFiles)
    (fun i => anns.getD i default, [])

/-- The grouped findings, as values, in first-seen push order (the content of
groupedAnnotations after the forEach, read from the final store). -/
def groupedVals (anns : List Annot) (changedFiles : List String) : List Annot :=
  ((runGrouping anns changedFiles).2).map (fun i => (runGrouping anns changedFiles).1 i)

/-- The sort comparator of createReviewComments, the source returns
a.line - b.line on equal paths and otherwise 1 or -1 by string order. -/
def jsCmp (a b : Annot) : Int :=
  if a.fullPath == b.fullPath then a.line - b.line
  else if strLtB b.fullPath a.fullPath then 1 else -1

/-- Nonpositive comparator outcome: the ordering relation realized by the
sort call. -/
def jsLe (a b : Annot) : Prop :=
  jsCmp a b ≤ 0

instance : DecidableRel jsLe :=
  fun a b => inferInstanceAs (Decidable (jsCmp a b ≤ 0))

/-- The grouped findings after the sort call.  Array.prototype.sort is
specified stable and the comparator is consistent, so a stable insertion
sort is the faithful embedding. -/
def sortedGroupedVals (anns : List Annot) (changedFiles : List String) : List Annot :=
  List.insertionSort jsLe (groupedVals anns changedFiles)

/-- The candidate built from one grouped finding: the body template string,
the path with the first occurrence of the HIE prefix removed, and the
line. -/
def mkComment (cfg : TicsConfig) (a : Annot) : ReviewComment :=
  { body := ":warning: **TiCS: " ++ a.type ++ " violation: " ++ a.msg ++ "** \r\n" ++
      (if a.count = 1 then "" else "(" ++ toString a.count ++ "x) ") ++
      "Line: " ++ toString a.line ++ ", Rule: " ++ a.rule ++ ", Level: " ++ a.level ++
      ", Category: " ++ a.category ++ " \r\n",
    path := replaceFirst a.fullPath ("HIE://" ++ cfg.projectName ++ "/" ++ cfg.branchName ++ "/"),
    line := a.line }

/-- createReviewComments from the source.  First component: the returned
candidate list.  Second component: the findings array after the call — the
source mutates count fields of the input objects in place, so the caller's
array is changed; it is materialized back to a list here. -/
def createReviewComments (anns : List Annot) (changedFiles : List String) (cfg : TicsConfig) :
    List ReviewComment × List Annot :=
  ((sortedGroupedVals anns changedFiles).map (mkComment cfg),
   (List.range anns.length).map (fun i => (runGrouping anns changedFiles).1 i))

/-- A network call against the review API, identified by its operation and
arguments. -/
inductive ApiCall where
  | listReviewComments : ApiCall
  | deleteReviewComment (comment_id : Int) : ApiCall
  | createReviewComment (body : String) (line : Int) (path : String) : ApiCall
deriving DecidableEq

instance : Inhabited ApiCall :=
  ⟨ApiCall.listReviewComments⟩

/-- A call as issued by the program, together with whether the program
awaits its completion before issuing the next call. -/
structure Issued where
  call : ApiCall
  awaited : Bool
deriving DecidableEq

instance : Inhabited Issued :=
  ⟨⟨ApiCall.listReviewComments, true⟩⟩

/-- The marker tested by deletePreviousReviewComments:
reviewComment.body.substring(0, 17) === this string. -/
def markerStr : String :=
  ":warning: **TiCS:"

/-- deletePreviousReviewComments from the source: for each retrieved comment
whose first 17 characters equal the marker
(reviewComment.body.substring(0, 17) === the marker), a delete call is
issued.  The character comparison is done on the underlying char lists;
substring counts code units and take counts characters, which agree on the
17-character ASCII marker.  The map of async arrows issues the deletions in
list order and never awaits them, so each delete is recorded as not
awaited. -/
def deletePreviousReviewComments : List PostedComment → List Issued
  | [] => []
  | rc :: rest =>
    if rc.body.data.take 17 == markerStr.data then
      ⟨ApiCall.deleteReviewComment rc.id, false⟩ :: deletePreviousReviewComments rest
    else deletePreviousReviewComments rest

/-- getPostedReviewComments from the source: the paginated list call inside
try/catch.  The oracle argument is the outcome of the network call; a throw
is caught, logged, and surfaces as undefined, embedded as none. -/
def getPostedReviewComments (listResult : Option (List PostedComment)) :
    Option (List PostedComment) :=
  listResult

/-- The posting loop of postReviewComments: each candidate is posted; a
rejected post (fails c = true) is caught and the candidate pushed onto the
unposted accumulator; the loop itself never throws. -/
def postCommentsLoop (fails : ReviewComment → Bool) (comments : List ReviewComment) :
    List ReviewComment :=
  comments.foldl (fun acc c => if fails c then acc ++ [c] else acc) []

/-- Calls issued by the purge phase of postReviewComments: when the list
call succeeded the delete fan-out of deletePreviousReviewComments, and
nothing when it failed (the source guards with if (postedReviewComments)). -/
def purgeTrace (listResult : Option (List PostedComment)) : List Issued :=
  match getPostedReviewComments listResult with
  | some posted => deletePreviousReviewComments posted
  | none => []

/-- postReviewComments from the source.  Oracles: listResult is the outcome
of the list call, fails says which create calls are rejected.  Returns the
unposted candidates and the trace of issued calls in program issue order:
the awaited list call, then the delete fan-out (when the list call
succeeded), then the create fan-out.  Creates are issued concurrently and
joined by Promise.all, so none of them is awaited before the next issue. -/
def postReviewComments (listResult : Option (List PostedComment)) (anns : List Annot)
    (changedFiles : List String) (cfg : TicsConfig) (fails : ReviewComment → Bool) :
    List ReviewComment × List Issued :=
  let comments := (createReviewComments anns changedFiles cfg).1
  (postCommentsLoop fails comments,
   ⟨ApiCall.listReviewComments, true⟩ ::
     (purgeTrace listResult ++
       comments.map (fun c => ⟨ApiCall.createReviewComment c.body c.line c.path, false⟩)))

/-- An observable event: the issue of a call or its completion. -/
inductive Ev where
  | issue (c : ApiCall) : Ev
  | complete (c : ApiCall) : Ev
deriving DecidableEq

instance : Inhabited Ev :=
  ⟨Ev.issue ApiCall.listReviewComments⟩

/-- The calls issued along an event trace, in order. -/
def issuesOf (tr : List Ev) : List ApiCall :=
  tr.filterMap (fun e => match e with
    | Ev.issue c => some c
    | Ev.complete _ => none)

/-- Number of occurrences of one event in a trace. -/
def evCount (tr : List Ev) (e : Ev) : Nat :=
  (tr.filter (fun x => x == e)).length

/-- Admissibility of an event trace for a program whose issued calls are
pairwise distinct: the issue events occur exactly in program order, every
call completes exactly once and only after its issue, and a call the
program awaits completes before the next call is issued. -/
def admissibleB (prog : List Issued) (tr : List Ev) : Bool :=
  issuesOf tr == prog.map (fun ic => ic.call) &&
  prog.all (fun ic => evCount tr (Ev.complete ic.call) == 1) &&
  (List.range prog.length).all (fun k =>
    let c := (prog.getD k default).call
    match tr.findIdx? (fun x => x == Ev.issue c), tr.findIdx? (fun x => x == Ev.complete c) with
    | some i, some j =>
      decide (i < j) &&
      (!(prog.getD k default).awaited ||
        decide (k + 1 ≥ prog.length) ||
        (match tr.findIdx? (fun x => x == Ev.issue ((prog.getD (k + 1) default).call)) with
         | some m => decide (j < m)
         | none => false))
    | _, _ => false)

/-- Recognizer for the completion of a delete call. -/
def isCompleteDelete : Ev → Bool
  | Ev.complete (ApiCall.deleteReviewComment _) => true
  | _ => false

/-- Recognizer for the issue of a create call. -/
def isIssueCreate : Ev → Bool
  | Ev.issue (ApiCall.createReviewComment _ _ _) => true
  | _ => false

/-- Recognizer for a delete call. -/
def isDeleteCall : ApiCall → Bool
  | ApiCall.deleteReviewComment _ => true
  | _ => false

/-- Recognizer for a create call. -/
def isCreateCall : ApiCall → Bool
  | ApiCall.createReviewComment _ _ _ => true
  | _ => false

/-- The property claimed of the purge phase: on every admissible schedule,
every completion of a delete call precedes every issue of a create call. -/
def DeletesCompleteBeforeCreates (prog : List Issued) : Prop :=
  ∀ tr : List Ev, admissibleB prog tr = true →
    ∀ i j, isCompleteDelete (tr.getD i default) = true →
      isIssueCreate (tr.getD j default) = true → i < j

lemma charsLt_irrefl (l : List Char) : charsLt l l = false := by
  induction l with
  | nil => rfl
  | cons a as ih => simp [charsLt, lt_irrefl, ih]

lemma charsLt_asymm : ∀ {a b : List Char}, charsLt a b = true → charsLt b a = false
  | [], [], h => by simp [charsLt] at h
  | [], _ :: _, _ => by simp [charsLt]
  | _ :: _, [], h => by simp [charsLt] at h
  | a :: as, b :: bs, h => by
    by_cases hab : a < b
    · have hba : ¬ b < a := asymm hab
      simp [charsLt, hab, hba]
    · by_cases hba : b < a
      · simp [charsLt, hab, hba] at h
      · have : charsLt as bs = true := by simpa [charsLt, hab, hba] using h
        simp [charsLt, hab, hba, charsLt_asymm this]

lemma charsLt_trans : ∀ {a b c : List Char},
    charsLt a b = true → charsLt b c = true → charsLt a c = true
  | [], [], _, h, _ => by simp [charsLt] at h
  | [], _ :: _, [], _, h => by simp [charsLt] at h
  | [], _ :: _, _ :: _, _, _ => by simp [charsLt]
  | _ :: _, [], _, h, _ => by simp [charsLt] at h
  | _ :: _, _ :: _, [], _, h => by simp [charsLt] at h
  | a :: as, b :: bs, c :: cs, h1, h2 => by
    by_cases hab : a < b
    · by_cases hbc : b < c
      · simp [charsLt, lt_trans hab hbc]
      · by_cases hcb : c < b
        · simp [charsLt, hbc, hcb] at h2
        · have hbc' : b = c := le_antisymm (le_of_not_lt hcb) (le_of_not_lt hbc)
          simp [charsLt, hbc' ▸ hab]
    · by_cases hba : b < a
      · simp [charsLt, hab, hba] at h1
      · have hab' : a = b := le_antisymm (le_of_not_lt hba) (le_of_not_lt hab)
        subst hab'
        by_cases hac : a < c
        · simp [charsLt, hac]
        · by_cases hca : c < a
          · simp [charsLt, hac, hca] at h2
          · have h1' : charsLt as bs = true := by simpa [charsLt, hab] using h1
            have h2' : charsLt bs cs = true := by simpa [charsLt, hac, hca] using h2
            simp [charsLt, hac, hca, charsLt_trans h1' h2']

lemma charsLt_total : ∀ {a b : List Char},
    charsLt a b = false → charsLt b a = false → a = b
  | [], [], _, _ => rfl
  | [], _ :: _, h, _ => by simp [charsLt] at h
  | _ :: _, [], _, h => by simp [charsLt] at h
  | a :: as, b :: bs, h1, h2 => by
    by_cases hab : a < b
    · simp [charsLt, hab] at h1
    · by_cases hba : b < a
      · simp [charsLt, hba] at h2
      · have hab' : a = b := le_antisymm (le_of_not_lt hba) (le_of_not_lt hab)
        subst hab'
        have h1' : charsLt as bs = false := by simpa [charsLt, hab] using h1
        have h2' : charsLt bs as = false := by simpa [charsLt, hab] using h2
        rw [charsLt_total h1' h2']

lemma strLtB_irrefl (s : String) : strLtB s s = false :=
  charsLt_irrefl s.data

lemma strLtB_asymm {a b : String} (h : strLtB a b = true) : strLtB b a = false :=
  charsLt_asymm h

lemma strLtB_trans {a b c : String} (h1 : strLtB a b = true) (h2 : strLtB b c = true) :
    strLtB a c = true :=
  charsLt_trans h1 h2

lemma strLtB_total {a b : String} (h1 : strLtB a b = false) (h2 : strLtB b a = false) :
    a = b :=
  String.ext (charsLt_total h1 h2)

lemma jsLe_iff (a b : Annot) :
    jsLe a b ↔ (strLtB a.fullPath b.fullPath = true ∨
      (a.fullPath = b.fullPath ∧ a.line ≤ b.line)) := by
  unfold jsLe jsCmp
  by_cases heq : a.fullPath = b.fullPath
  · simp [heq, strLtB_irrefl, sub_nonpos]
  · have hbeq : (a.fullPath == b.fullPath) = false := by
      simp [heq]
    cases hlt : strLtB b.fullPath a.fullPath with
    | true =>
      simp [hbeq, hlt, heq, strLtB_asymm hlt]
    | false =>
      have : strLtB a.fullPath b.fullPath = true := by
        cases h' : strLtB a.fullPath b.fullPath with
        | true => rfl
        | false => exact absurd (strLtB_total h' hlt) heq
      simp [hbeq, hlt, this]

instance : IsTotal Annot jsLe :=
  ⟨fun a b => by
    rw [jsLe_iff, jsLe_iff]
    by_cases heq : a.fullPath = b.fullPath
    · rcases Int.le_total a.line b.line with h | h
      · exact Or.inl (Or.inr ⟨heq, h⟩)
      · exact Or.inr (Or.inr ⟨heq.symm, h⟩)
    · cases hab : strLtB a.fullPath b.fullPath with
      | true => exact Or.inl (Or.inl rfl)
      | false =>
        cases hba : strLtB b.fullPath a.fullPath with
        | true => exact Or.inr (Or.inl rfl)
        | false => exact absurd (strLtB_total hab hba) heq⟩

instance : IsTrans Annot jsLe :=
  ⟨fun a b c hab hbc => by
    rw [jsLe_iff] at hab hbc ⊢
    rcases hab with h1 | ⟨e1, l1⟩
    · rcases hbc with h2 | ⟨e2, l2⟩
      · exact Or.inl (strLtB_trans h1 h2)
      · exact Or.inl (e2 ▸ h1)
    · rcases hbc with h2 | ⟨e2, l2⟩
      · exact Or.inl (e1 ▸ h2)
      · exact Or.inr ⟨e1.trans e2, le_trans l1 l2⟩⟩

/-- The sort key relevant for tie stability: fullPath and line. -/
def keyB (k : String × Int) (a : Annot) : Bool :=
  a.fullPath == k.1 && a.line == k.2

lemma jsLe_of_keyB {k : String × Int} {a y : Annot}
    (ha : keyB k a = true) (hy : keyB k y = true) : jsLe a y := by
  rw [jsLe_iff]
  simp only [keyB, Bool.and_eq_true, beq_iff_eq] at ha hy
  exact Or.inr ⟨ha.1.trans hy.1.symm, le_of_eq (ha.2.trans hy.2.symm)⟩

lemma keyB_eq_false_of_not_jsLe {k : String × Int} {a y : Annot}
    (ha : keyB k a = true) (hy : ¬ jsLe a y) : keyB k y = false := by
  cases h : keyB k y with
  | true => exact absurd (jsLe_of_keyB ha h) hy
  | false => rfl

lemma filter_orderedInsert_key (k : String × Int) (a : Annot) (l : List Annot) :
    (List.orderedInsert jsLe a l).filter (keyB k) =
      if keyB k a then a :: l.filter (keyB k) else l.filter (keyB k) := by
  induction l with
  | nil => simp [List.orderedInsert, List.filter_cons]
  | cons b l' ih =>
    by_cases hle : jsLe a b
    · simp [List.orderedInsert, if_pos hle, List.filter_cons]
    · by_cases hka : keyB k a = true
      · have hkb : keyB k b = false := keyB_eq_false_of_not_jsLe hka hle
        simp [List.orderedInsert, if_neg hle, List.filter_cons, hka, hkb, ih]
      · simp [List.orderedInsert, if_neg hle, List.filter_cons, hka, ih]

lemma insertionSort_filter_key (k : String × Int) (l : List Annot) :
    (List.insertionSort jsLe l).filter (keyB k) = l.filter (keyB k) := by
  induction l with
  | nil => rfl
  | cons a l' ih =>
    simp [List.insertionSort, filter_orderedInsert_key, ih, List.filter_cons]

lemma findAnnotationInList_eq_some {store : Nat → Annot} {ids : List Nat} {ann : Annot}
    {k : Nat} (h : findAnnotationInList store ids ann = some k) :
    ∃ i, ids[k]? = some i ∧ dupKeyB (store i) ann = true := by
  induction ids generalizing k with
  | nil => simp [findAnnotationInList] at h
  | cons i rest ih =>
    by_cases hd : dupKeyB (store i) ann = true
    · simp only [findAnnotationInList, if_pos hd, Option.some.injEq] at h
      exact ⟨i, by simp [← h], hd⟩
    · simp only [findAnnotationInList, if_neg hd, Option.map_eq_some'] at h
      obtain ⟨k', hk', rfl⟩ := h
      obtain ⟨i', hi', hdup⟩ := ih hk'
      exact ⟨i', by simpa using hi', hdup⟩

lemma findAnnotationInList_eq_none {store : Nat → Annot} {ids : List Nat} {ann : Annot} :
    findAnnotationInList store ids ann = none ↔
      ∀ i ∈ ids, dupKeyB (store i) ann = false := by
  induction ids with
  | nil => simp [findAnnotationInList]
  | cons i rest ih =>
    by_cases hd : dupKeyB (store i) ann = true
    · simp [findAnnotationInList, hd]
    · simp only [findAnnotationInList, if_neg hd, Option.map_eq_none', ih, List.mem_cons]
      constructor
      · intro h j hj
        rcases hj with rfl | hj
        · simpa using hd
        · exact h j hj
      · intro h j hj
        exact h j (Or.inr hj)

lemma range_foldl_succ {σ : Type} (f : σ → Nat → σ) (init : σ) (m : Nat) :
    (List.range (m + 1)).foldl f init = f ((List.range m).foldl f init) m := by
  rw [List.range_succ, List.foldl_append, List.foldl_cons, List.foldl_nil]

/-- The grouping fold stopped after the first m findings. -/
def runGroupingUpTo (anns : List Annot) (changedFiles : List String) (m : Nat) :
    (Nat → Annot) × List Nat :=
  (List.range m).foldl (groupStep changedFiles) (fun i => anns.getD i default, [])

lemma runGroupingUpTo_length (anns : List Annot) (changedFiles : List String) :
    runGroupingUpTo anns changedFiles anns.length = runGrouping anns changedFiles :=
  rfl

lemma runGroupingUpTo_succ (anns : List Annot) (changedFiles : List String) (m : Nat) :
    runGroupingUpTo anns changedFiles (m + 1) =
      groupStep changedFiles (runGroupingUpTo anns changedFiles m) m :=
  range_foldl_succ _ _ m

/-- Mutation during grouping touches only the count field: every field other
than count of every store position is the field of the input finding, and
every grouped position was pushed with its scope check true. -/
lemma runGroupingUpTo_invariant (anns : List Annot) (changedFiles : List String) (m : Nat) :
    (∀ i, ((runGroupingUpTo anns changedFiles m).1 i).fullPath =
        (anns.getD i default).fullPath) ∧
    (∀ k ∈ (runGroupingUpTo anns changedFiles m).2,
        k < m ∧ scopeCheck changedFiles (anns.getD k default).fullPath = true) := by
  induction m with
  | zero =>
    constructor
    · intro i; rfl
    · intro k hk; simp [runGroupingUpTo] at hk
  | succ m ih =>
    obtain ⟨ihStore, ihMem⟩ := ih
    rw [runGroupingUpTo_succ]
    set st := runGroupingUpTo anns changedFiles m with hst
    unfold groupStep
    by_cases hscope : scopeCheck changedFiles ((st.1 m).fullPath) = true
    · rw [if_pos hscope]
      cases hfind : findAnnotationInList st.1 st.2 (st.1 m) with
      | none =>
        constructor
        · intro i; exact ihStore i
        · intro k hk
          rcases List.mem_append.mp hk with hk | hk
          · exact ⟨Nat.lt_succ_of_lt (ihMem k hk).1, (ihMem k hk).2⟩
          · simp only [List.mem_singleton] at hk
            rw [hk]
            refine ⟨Nat.lt_succ_self m, ?_⟩
            rw [← ihStore m]
            exact hscope
      | some k =>
        constructor
        · intro i
          by_cases hik : i = k
          · simp only [hik, if_pos rfl]
            exact ihStore k
          · simp only [if_neg hik]
            exact ihStore i
        · exact fun k' hk' => ⟨Nat.lt_succ_of_lt (ihMem k' hk').1, (ihMem k' hk').2⟩
    · rw [if_neg hscope]
      exact ⟨ihStore, fun k hk => ⟨Nat.lt_succ_of_lt (ihMem k hk).1, (ihMem k hk).2⟩⟩

lemma scopeCheck_eq_false_of_no_match {changedFiles : List String} {fullPath : String}
    (h : ∀ c ∈ changedFiles, substrIncludes fullPath c = false) :
    scopeCheck changedFiles fullPath = false := by
  unfold scopeCheck
  have : changedFiles.find? (fun c => substrIncludes fullPath c) = none :=
    List.find?_eq_none.mpr (by intro c hc; simp [h c hc])
  rw [this]

lemma range_map_getD {α : Type} [Inhabited α] (l : List α) :
    (List.range l.length).map (fun i => l.getD i default) = l := by
  apply List.ext_getElem
  · simp
  · intro n h1 h2
    simp [List.getD_eq_getElem?_getD, List.getElem?_eq_getElem h2]

lemma mem_of_getElem_opt {α : Type} {l : List α} {n : Nat} {a : α}
    (h : l[n]? = some a) : a ∈ l := by
  rcases List.getElem?_eq_some.mp h with ⟨hn, rfl⟩
  exact List.getElem_mem hn

lemma getD_mem_of_lt {α : Type} [Inhabited α] (l : List α) (n : Nat)
    (h : n < l.length) : l.getD n default ∈ l := by
  rw [List.getD_eq_getElem?_getD, List.getElem?_eq_getElem h]
  exact List.getElem_mem h

lemma getD_eq_default_of_le {α : Type} [Inhabited α] (l : List α) (n : Nat)
    (h : l.length ≤ n) : l.getD n default = default := by
  rw [List.getD_eq_getElem?_getD, List.getElem?_eq_none h]
  rfl

lemma getD_append_cases {α : Type} [Inhabited α] (l1 l2 : List α) (n : Nat) :
    (n < l1.length ∧ (l1 ++ l2).getD n default = l1.getD n default) ∨
    (l1.length ≤ n ∧ (l1 ++ l2).getD n default = l2.getD (n - l1.length) default) := by
  by_cases h : n < l1.length
  · left
    refine ⟨h, ?_⟩
    rw [List.getD_eq_getElem?_getD, List.getD_eq_getElem?_getD, List.getElem?_append]
    rw [if_pos h]
  · right
    refine ⟨Nat.le_of_not_lt h, ?_⟩
    rw [List.getD_eq_getElem?_getD, List.getD_eq_getElem?_getD, List.getElem?_append]
    rw [if_neg h]

lemma postCommentsLoop_eq_filter (fails : ReviewComment → Bool)
    (comments : List ReviewComment) :
    postCommentsLoop fails comments = comments.filter fails := by
  have key : ∀ (l : List ReviewComment) (acc : List ReviewComment),
      l.foldl (fun acc c => if fails c then acc ++ [c] else acc) acc =
        acc ++ l.filter fails := by
    intro l
    induction l with
    | nil => intro acc; simp
    | cons c l' ih =>
      intro acc
      by_cases hc : fails c = true
      · simp [List.foldl_cons, hc, ih, List.filter_cons]
      · simp [List.foldl_cons, hc, ih, List.filter_cons]
  simpa using key comments []

lemma deletePreviousReviewComments_shape (posted : List PostedComment) :
    ∀ e ∈ deletePreviousReviewComments posted,
      ∃ i, e = Issued.mk (ApiCall.deleteReviewComment i) false := by
  induction posted with
  | nil => intro e he; simp [deletePreviousReviewComments] at he
  | cons rc rest ih =>
    intro e he
    unfold deletePreviousReviewComments at he
    by_cases hm : (rc.body.data.take 17 == markerStr.data) = true
    · rw [if_pos hm] at he
      rcases List.mem_cons.mp he with rfl | he
      · exact ⟨rc.id, rfl⟩
      · exact ih e he
    · rw [if_neg hm] at he
      exact ih e he

/-- The grouping fold never pushes a position whose scope check failed, and
the whole pipeline of createReviewComments yields the empty candidate list
when the changed-file list is empty. -/
lemma runGrouping_mem_scope (anns : List Annot) (changedFiles : List String) :
    ∀ k ∈ (runGrouping anns changedFiles).2,
      scopeCheck changedFiles (anns.getD k default).fullPath = true := by
  intro k hk
  exact ((runGroupingUpTo_invariant anns changedFiles anns.length).2 k hk).2

lemma runGrouping_snd_nil_of_scope_false (anns : List Annot) (changedFiles : List String)
    (h : ∀ k, scopeCheck changedFiles (anns.getD k default).fullPath = false) :
    (runGrouping anns changedFiles).2 = [] := by
  rw [List.eq_nil_iff_forall_not_mem]
  intro k hk
  have := runGrouping_mem_scope anns changedFiles k hk
  rw [h k] at this
  exact Bool.false_ne_true this

lemma createReviewComments_fst_nil_of_snd_nil (anns : List Annot)
    (changedFiles : List String) (cfg : TicsConfig)
    (h : (runGrouping anns changedFiles).2 = []) :
    (createReviewComments anns changedFiles cfg).1 = [] := by
  unfold createReviewComments sortedGroupedVals groupedVals
  rw [h]
  rfl

lemma substrIncludes_empty (s : String) : substrIncludes s "" = true := by
  unfold substrIncludes
  cases hd : s.data with
  | nil => rfl
  | cons c cs => simp [charsIndexOf, charsLeads]

lemma scopeCheck_cons_empty (changedFiles : List String) (fullPath : String) :
    scopeCheck ("" :: changedFiles) fullPath = false := by
  unfold scopeCheck
  rw [List.find?_cons_of_pos _ (substrIncludes_empty fullPath)]
  rfl

/-- When no two distinct in-scope findings share the duplicate key, the
grouping fold never takes the increment branch, so the findings array is
left unchanged. -/
lemma runGroupingUpTo_store_unchanged (anns : List Annot) (changedFiles : List String)
    (H : ∀ j < anns.length, ∀ i < j,
        scopeCheck changedFiles (anns.getD i default).fullPath = true →
        scopeCheck changedFiles (anns.getD j default).fullPath = true →
        dupKeyB (anns.getD i default) (anns.getD j default) = false) :
    ∀ m, m ≤ anns.length →
      (runGroupingUpTo anns changedFiles m).1 = fun i => anns.getD i default := by
  intro m
  induction m with
  | zero => intro _; rfl
  | succ m ih =>
    intro hm
    have hmlt : m < anns.length := hm
    have hst := ih (Nat.le_of_succ_le hm)
    rw [runGroupingUpTo_succ]
    unfold groupStep
    by_cases hscope :
        scopeCheck changedFiles (((runGroupingUpTo anns changedFiles m).1 m).fullPath) = true
    · rw [if_pos hscope]
      cases hfind : findAnnotationInList (runGroupingUpTo anns changedFiles m).1
          (runGroupingUpTo anns changedFiles m).2
          ((runGroupingUpTo anns changedFiles m).1 m) with
      | none => exact hst
      | some k =>
        exfalso
        obtain ⟨i, hik, hdup⟩ := findAnnotationInList_eq_some hfind
        have himem : i ∈ (runGroupingUpTo anns changedFiles m).2 := mem_of_getElem_opt hik
        obtain ⟨him, hisc⟩ := (runGroupingUpTo_invariant anns changedFiles m).2 i himem
        rw [hst] at hdup hscope
        have := H m hmlt i him hisc hscope
        rw [this] at hdup
        exact Bool.false_ne_true hdup
    · rw [if_neg hscope]
      exact hst

/-- Under the same no-duplicates hypothesis the whole call leaves the
findings array it returns equal to its input. -/
lemma createReviewComments_snd_unchanged (anns : List Annot) (changedFiles : List String)
    (cfg : TicsConfig)
    (H : ∀ j < anns.length, ∀ i < j,
        scopeCheck changedFiles (anns.getD i default).fullPath = true →
        scopeCheck changedFiles (anns.getD j default).fullPath = true →
        dupKeyB (anns.getD i default) (anns.getD j default) = false) :
    (createReviewComments anns changedFiles cfg).2 = anns := by
  unfold createReviewComments
  have h1 : (runGrouping anns changedFiles).1 = fun i => anns.getD i default := by
    rw [← runGroupingUpTo_length]
    exact runGroupingUpTo_store_unchanged anns changedFiles H anns.length le_rfl
  simp only [h1]
  exact range_map_getD anns

/-- Concrete configuration used by witnesses and counterexamples. -/
def cfgW : TicsConfig :=
  ⟨"p", "b"⟩

/-- Concrete finding, in scope of changed file x. -/
def annW1 : Annot :=
  ⟨"x", 1, "r", "l", "c", "t", "m", 1⟩

/-- Concrete finding with the same duplicate key as annW1 but another
message. -/
def annW2 : Annot :=
  ⟨"x", 1, "r", "l", "c", "t", "m2", 1⟩

/-- Concrete finding whose fullPath carries the HIE project/branch marker
of cfgW. -/
def annW3 : Annot :=
  ⟨"HIE://p/b/b.ts", 1, "r", "l", "c", "t", "m", 1⟩

/-- Concrete finding with a bare repository path. -/
def annW4 : Annot :=
  ⟨"a.ts", 1, "r", "l", "c", "t", "m", 1⟩

/-- Concrete finding with a second key, in scope of changed file y. -/
def annW5 : Annot :=
  ⟨"y", 5, "r2", "l", "c", "t", "m", 1⟩

/-- A previously posted comment owned by the tool (body carries the
marker). -/
def pcW : PostedComment :=
  ⟨7, ":warning: **TiCS: old comment"⟩

/-- C1.  For a pair of findings a, b sharing the duplicate key and both in
scope, grouping the list consisting of a then b yields exactly one
candidate, whose count is a.count + b.count and whose body text is built
from a, the first occurrence in the input. -/
theorem c1_pair_dedup (a b : Annot) (changedFiles : List String) (cfg : TicsConfig)
    (ha : scopeCheck changedFiles a.fullPath = true)
    (hb : scopeCheck changedFiles b.fullPath = true)
    (hdup : dupKeyB a b = true) :
    (createReviewComments [a, b] changedFiles cfg).1 =
      [mkComment cfg { a with count := a.count + b.count }] := by
  have hrange : List.range ([a, b] : List Annot).length = [0, 1] := rfl
  unfold createReviewComments sortedGroupedVals groupedVals runGrouping
  rw [hrange]
  simp only [List.foldl_cons, List.foldl_nil, groupStep, findAnnotationInList,
    List.getD_cons_zero, List.getD_cons_succ, ha, hb, hdup, if_true, List.nil_append,
    List.map_cons, List.map_nil, List.insertionSort, List.orderedInsert]

theorem c1_pair_dedup_witness :
    scopeCheck ["x"] annW1.fullPath = true ∧
    scopeCheck ["x"] annW2.fullPath = true ∧
    dupKeyB annW1 annW2 = true ∧
    (createReviewComments [annW1, annW2] ["x"] cfgW).1 =
      [mkComment cfgW { annW1 with count := annW1.count + annW2.count }] :=
  ⟨by decide, by decide, by decide,
   c1_pair_dedup annW1 annW2 ["x"] cfgW (by decide) (by decide) (by decide)⟩

/-- C2, counterexample.  Grouping mutates the count fields of the input
array in place, so grouping the same (mutated) array a second time
produces a different candidate: after the first call the stored count is
2 and the second call returns a 3x candidate instead of the 2x one. -/
theorem c2_counterexample :
    (createReviewComments ((createReviewComments [annW1, annW2] ["x"] cfgW).2) ["x"] cfgW).1
      ≠ (createReviewComments [annW1, annW2] ["x"] cfgW).1 := by
  decide

/-- C2, amended.  When no two distinct in-scope findings of the input share
the duplicate key, grouping leaves the findings array unchanged, and
grouping twice in succession yields the same candidate sequence. -/
theorem c2_idempotent_without_dups (anns : List Annot) (changedFiles : List String)
    (cfg : TicsConfig)
    (H : ∀ j < anns.length, ∀ i < j,
        scopeCheck changedFiles (anns.getD i default).fullPath = true →
        scopeCheck changedFiles (anns.getD j default).fullPath = true →
        dupKeyB (anns.getD i default) (anns.getD j default) = false) :
    (createReviewComments anns changedFiles cfg).2 = anns ∧
    (createReviewComments ((createReviewComments anns changedFiles cfg).2) changedFiles cfg).1
      = (createReviewComments anns changedFiles cfg).1 := by
  have h2 := createReviewComments_snd_unchanged anns changedFiles cfg H
  exact ⟨h2, by rw [h2]⟩

theorem c2_idempotent_without_dups_witness :
    (∀ j < ([annW1, annW5] : List Annot).length, ∀ i < j,
        scopeCheck ["x", "y"] (([annW1, annW5] : List Annot).getD i default).fullPath = true →
        scopeCheck ["x", "y"] (([annW1, annW5] : List Annot).getD j default).fullPath = true →
        dupKeyB (([annW1, annW5] : List Annot).getD i default)
          (([annW1, annW5] : List Annot).getD j default) = false) ∧
    (createReviewComments [annW1, annW5] ["x", "y"] cfgW).2 = [annW1, annW5] ∧
    (createReviewComments ((createReviewComments [annW1, annW5] ["x", "y"] cfgW).2)
        ["x", "y"] cfgW).1
      = (createReviewComments [annW1, annW5] ["x", "y"] cfgW).1 := by
  refine ⟨by decide, ?_, ?_⟩
  · exact (c2_idempotent_without_dups [annW1, annW5] ["x", "y"] cfgW (by decide)).1
  · exact (c2_idempotent_without_dups [annW1, annW5] ["x", "y"] cfgW (by decide)).2

/-- C5.  A finding whose fullPath contains no entry of changedFiles never
enters the grouped list, and both an empty changed-file list and an empty
input list produce the empty candidate list. -/
theorem c5_scope_filter (anns : List Annot) (changedFiles : List String) (cfg : TicsConfig) :
    (∀ j, (∀ c ∈ changedFiles,
        substrIncludes ((anns.getD j default).fullPath) c = false) →
      j ∉ (runGrouping anns changedFiles).2) ∧
    (createReviewComments anns [] cfg).1 = [] ∧
    (createReviewComments [] changedFiles cfg).1 = [] := by
  refine ⟨?_, ?_, rfl⟩
  · intro j hj hmem
    have hsc := runGrouping_mem_scope anns changedFiles j hmem
    rw [scopeCheck_eq_false_of_no_match hj] at hsc
    exact Bool.false_ne_true hsc
  · exact createReviewComments_fst_nil_of_snd_nil anns [] cfg
      (runGrouping_snd_nil_of_scope_false anns [] (fun _ => rfl))

theorem c5_scope_filter_witness :
    (∀ c ∈ ["zzz"], substrIncludes ((([annW4] : List Annot).getD 0 default).fullPath) c = false) ∧
    0 ∉ (runGrouping [annW4] ["zzz"]).2 ∧
    (createReviewComments [annW4] [] cfgW).1 = [] ∧
    (createReviewComments [] ["zzz"] cfgW).1 = [] :=
  ⟨by decide, (c5_scope_filter [annW4] ["zzz"] cfgW).1 0 (by decide),
   (c5_scope_filter [annW4] [] cfgW).2.1, (c5_scope_filter [] ["zzz"] cfgW).2.2⟩

/-- C6, counterexample.  The sort compares fullPath, but the candidate path
is fullPath with the HIE marker stripped; stripping can reorder.  Here the
output paths are b.ts then a.ts although a.ts is lexicographically
smaller, so the later candidate has the smaller path. -/
theorem c6_counterexample :
    ((createReviewComments [annW3, annW4] ["a.ts", "b.ts"] cfgW).1.map
        (fun c => c.path)) = ["b.ts", "a.ts"] ∧
    strLtB "a.ts" "b.ts" = true := by
  decide

/-- C6, amended.  The candidate list is the grouped findings sorted by
fullPath (string order), ties by ascending line, remaining ties kept in
first-seen grouping order (stable sort), then formatted; the order is by
fullPath, not by the marker-stripped candidate path. -/
theorem c6_sorted_by_fullPath (anns : List Annot) (changedFiles : List String)
    (cfg : TicsConfig) :
    List.Sorted jsLe (sortedGroupedVals anns changedFiles) ∧
    (∀ k : String × Int, (sortedGroupedVals anns changedFiles).filter (keyB k) =
        (groupedVals anns changedFiles).filter (keyB k)) ∧
    (createReviewComments anns changedFiles cfg).1 =
      (sortedGroupedVals anns changedFiles).map (mkComment cfg) :=
  ⟨List.sorted_insertionSort jsLe _, fun k => insertionSort_filter_key k _, rfl⟩

/-- C7.  Two findings are treated as duplicates by the grouping fold exactly
when fullPath, type, line, rule, level and category are all equal; the
msg field is not part of the key, so a finding and its msg-variant always
group together. -/
theorem c7_duplicate_key (a b : Annot) :
    (dupKeyB a b = true ↔
      (a.fullPath = b.fullPath ∧ a.type = b.type ∧ a.line = b.line ∧
       a.rule = b.rule ∧ a.level = b.level ∧ a.category = b.category)) ∧
    (∀ m : String, dupKeyB a { a with msg := m } = true) := by
  constructor
  · simp [dupKeyB, and_assoc]
  · intro m
    simp [dupKeyB]

/-- C10, counterexample.  The finding matches the nonempty entry x, yet with
the empty string in front of the changed-file list it is dropped: find
returns the empty string, which is falsy, so the scope test fails. -/
theorem c10_counterexample :
    scopeCheck ["x"] annW1.fullPath = true ∧
    (createReviewComments [annW1] ["", "x"] cfgW).1 = [] := by
  decide

/-- C10, amended.  The empty string is indeed contained in every fullPath,
but because find returns the matched element and the empty string is falsy,
a changed-file list starting with the empty string makes the scope check
false for every finding, so the candidate list is empty. -/
theorem c10_empty_string_scope (anns : List Annot) (changedFiles : List String)
    (cfg : TicsConfig) :
    (∀ fullPath, substrIncludes fullPath "" = true) ∧
    (∀ fullPath, scopeCheck ("" :: changedFiles) fullPath = false) ∧
    (createReviewComments anns ("" :: changedFiles) cfg).1 = [] :=
  ⟨substrIncludes_empty, fun fp => scopeCheck_cons_empty changedFiles fp,
   createReviewComments_fst_nil_of_snd_nil _ _ _
     (runGrouping_snd_nil_of_scope_false _ _ (fun _ => scopeCheck_cons_empty _ _))⟩

lemma purgeTrace_shape (listResult : Option (List PostedComment)) :
    ∀ e ∈ purgeTrace listResult,
      ∃ i, e = Issued.mk (ApiCall.deleteReviewComment i) false := by
  cases listResult with
  | none => intro e he; simp [purgeTrace, getPostedReviewComments] at he
  | some posted =>
    intro e he
    exact deletePreviousReviewComments_shape posted e he

lemma trace_order_aux (dt ct : List Issued) (i j : Nat)
    (hdtc : ∀ e ∈ dt, isCreateCall e.call = false)
    (hctd : ∀ e ∈ ct, isDeleteCall e.call = false)
    (hdel : isDeleteCall
        (((Issued.mk ApiCall.listReviewComments true) :: (dt ++ ct)).getD i default).call
        = true)
    (hcre : isCreateCall
        (((Issued.mk ApiCall.listReviewComments true) :: (dt ++ ct)).getD j default).call
        = true) :
    i < j := by
  cases i with
  | zero =>
    rw [List.getD_cons_zero] at hdel
    exact absurd hdel (by decide)
  | succ n =>
    rw [List.getD_cons_succ] at hdel
    cases j with
    | zero =>
      rw [List.getD_cons_zero] at hcre
      exact absurd hcre (by decide)
    | succ m =>
      rw [List.getD_cons_succ] at hcre
      have hn : n < dt.length := by
        rcases getD_append_cases dt ct n with ⟨h, heq⟩ | ⟨h, heq⟩
        · exact h
        · rw [heq] at hdel
          by_cases h2 : n - dt.length < ct.length
          · have hmem := getD_mem_of_lt ct (n - dt.length) h2
            rw [hctd _ hmem] at hdel
            exact absurd hdel (by decide)
          · rw [getD_eq_default_of_le ct _ (Nat.le_of_not_lt h2)] at hdel
            exact absurd hdel (by decide)
      have hm : dt.length ≤ m := by
        by_contra h2
        have h3 : m < dt.length := Nat.lt_of_not_le h2
        rcases getD_append_cases dt ct m with ⟨h4, heq⟩ | ⟨h4, heq⟩
        · rw [heq] at hcre
          have hmem := getD_mem_of_lt dt m h4
          rw [hdtc _ hmem] at hcre
          exact absurd hcre (by decide)
        · omega
      omega

/-- C3, amended.  Within one run of postReviewComments every delete call is
issued before every create call is issued; the deletions are fired and
forgotten (not awaited), so issue order — not completion — is all the
program guarantees. -/
theorem c3_deletes_issued_before_creates (listResult : Option (List PostedComment))
    (anns : List Annot) (changedFiles : List String) (cfg : TicsConfig)
    (fails : ReviewComment → Bool) (i j : Nat)
    (hdel : isDeleteCall
        (((postReviewComments listResult anns changedFiles cfg fails).2.getD i default).call)
        = true)
    (hcre : isCreateCall
        (((postReviewComments listResult anns changedFiles cfg fails).2.getD j default).call)
        = true) :
    i < j := by
  have hdt : ∀ e ∈ purgeTrace listResult, isCreateCall e.call = false := by
    intro e he
    obtain ⟨id0, rfl⟩ := purgeTrace_shape listResult e he
    rfl
  have hct : ∀ e ∈ ((createReviewComments anns changedFiles cfg).1).map
      (fun c => Issued.mk (ApiCall.createReviewComment c.body c.line c.path) false),
      isDeleteCall e.call = false := by
    intro e he
    obtain ⟨c, hc, rfl⟩ := List.mem_map.mp he
    rfl
  exact trace_order_aux _ _ i j hdt hct hdel hcre

/-- The issued-call trace of the concrete run used to refute the completion
claim: one marker-owned posted comment, one candidate. -/
def progW : List Issued :=
  (postReviewComments (some [pcW]) [annW1] ["x"] cfgW (fun _ => false)).2

/-- An admissible schedule of progW in which the delete call completes only
after the create call has been issued. -/
def trW : List Ev :=
  [Ev.issue (progW.getD 0 default).call, Ev.complete (progW.getD 0 default).call,
   Ev.issue (progW.getD 1 default).call, Ev.issue (progW.getD 2 default).call,
   Ev.complete (progW.getD 1 default).call, Ev.complete (progW.getD 2 default).call]

/-- C3, counterexample.  The program never awaits the delete fan-out, so
there is an admissible schedule of a concrete run in which a delete call
completes after the first create call is issued: deletions are not
guaranteed to be completed before posting starts. -/
theorem c3_counterexample : ¬ DeletesCompleteBeforeCreates progW := by
  intro h
  have h2 := h trW (by decide) 4 3 (by decide) (by decide)
  omega

theorem c3_deletes_issued_before_creates_witness :
    isDeleteCall ((progW.getD 1 default).call) = true ∧
    isCreateCall ((progW.getD 2 default).call) = true ∧ 1 < 2 :=
  ⟨by decide, by decide,
   c3_deletes_issued_before_creates (some [pcW]) [annW1] ["x"] cfgW (fun _ => false) 1 2
     (by decide) (by decide)⟩

/-- C4.  When the posts that are rejected are exactly those in the failing
set K (restricted to the candidates), postReviewComments runs to completion
and returns exactly the failing candidates: literally the filter of the
candidate list, hence as a set the candidates that lie in K. -/
theorem c4_partial_posting (listResult : Option (List PostedComment)) (anns : List Annot)
    (changedFiles : List String) (cfg : TicsConfig) (fails : ReviewComment → Bool)
    (K : List ReviewComment)
    (hK : ∀ c ∈ (createReviewComments anns changedFiles cfg).1,
        (fails c = true ↔ c ∈ K)) :
    (postReviewComments listResult anns changedFiles cfg fails).1 =
      ((createReviewComments anns changedFiles cfg).1).filter fails ∧
    (∀ c, c ∈ (postReviewComments listResult anns changedFiles cfg fails).1 ↔
      (c ∈ (createReviewComments anns changedFiles cfg).1 ∧ c ∈ K)) := by
  have h1 : (postReviewComments listResult anns changedFiles cfg fails).1 =
      ((createReviewComments anns changedFiles cfg).1).filter fails := by
    unfold postReviewComments
    exact postCommentsLoop_eq_filter _ _
  refine ⟨h1, ?_⟩
  intro c
  rw [h1, List.mem_filter]
  constructor
  · rintro ⟨hmem, hf⟩
    exact ⟨hmem, (hK c hmem).mp hf⟩
  · rintro ⟨hmem, hk⟩
    exact ⟨hmem, (hK c hmem).mpr hk⟩

theorem c4_partial_posting_witness :
    (∀ c ∈ (createReviewComments [annW1, annW5] ["x", "y"] cfgW).1,
        ((fun c0 : ReviewComment => c0.line == 5) c = true ↔
          c ∈ ((createReviewComments [annW1, annW5] ["x", "y"] cfgW).1).filter
            (fun c0 : ReviewComment => c0.line == 5))) ∧
    (postReviewComments (some [pcW]) [annW1, annW5] ["x", "y"] cfgW
        (fun c0 : ReviewComment => c0.line == 5)).1 =
      ((createReviewComments [annW1, annW5] ["x", "y"] cfgW).1).filter
        (fun c0 : ReviewComment => c0.line == 5) :=
  ⟨by decide,
   (c4_partial_posting (some [pcW]) [annW1, annW5] ["x", "y"] cfgW
     (fun c0 : ReviewComment => c0.line == 5)
     (((createReviewComments [annW1, annW5] ["x", "y"] cfgW).1).filter
       (fun c0 : ReviewComment => c0.line == 5))
     (by decide)).1⟩

/-- C8.  During the purge a delete call is issued for a retrieved comment
exactly when its body starts with the fixed marker (first 17 characters
equal to it); comments without the marker are never deleted. -/
theorem c8_marker_owned (posted : List PostedComment) (i : Int) :
    (Issued.mk (ApiCall.deleteReviewComment i) false ∈
        deletePreviousReviewComments posted) ↔
      ∃ rc ∈ posted, rc.id = i ∧ rc.body.data.take 17 = markerStr.data := by
  induction posted with
  | nil => simp [deletePreviousReviewComments]
  | cons rc rest ih =>
    by_cases hm : (rc.body.data.take 17 == markerStr.data) = true
    · have hm' : rc.body.data.take 17 = markerStr.data := by
        exact beq_iff_eq.mp hm
      unfold deletePreviousReviewComments
      rw [if_pos hm]
      constructor
      · intro h
        rcases List.mem_cons.mp h with heq | h2
        · injection heq with h1 h2'
          injection h1 with hid
          exact ⟨rc, List.mem_cons_self rc rest, hid.symm, hm'⟩
        · obtain ⟨rc', hmem, hid, hmk⟩ := ih.mp h2
          exact ⟨rc', List.mem_cons_of_mem rc hmem, hid, hmk⟩
      · rintro ⟨rc', hmem, hid, hmk⟩
        rcases List.mem_cons.mp hmem with rfl | hmem2
        · rw [← hid]
          exact List.mem_cons_self _ _
        · exact List.mem_cons_of_mem _ (ih.mpr ⟨rc', hmem2, hid, hmk⟩)
    · have hm' : ¬ rc.body.data.take 17 = markerStr.data := by
        intro h
        exact hm (beq_iff_eq.mpr h)
      unfold deletePreviousReviewComments
      rw [if_neg hm]
      rw [ih]
      constructor
      · rintro ⟨rc', hmem, hid, hmk⟩
        exact ⟨rc', List.mem_cons_of_mem rc hmem, hid, hmk⟩
      · rintro ⟨rc', hmem, hid, hmk⟩
        rcases List.mem_cons.mp hmem with rfl | hmem2
        · exact absurd hmk hm'
        · exact ⟨rc', hmem2, hid, hmk⟩

/-- C9.  When the list call fails (oracle none, the catch path of
getPostedReviewComments) the purge is skipped: no delete call appears in
the trace, the list call and every create call are still issued, and the
unposted set is computed as usual — the run is not aborted. -/
theorem c9_list_failure_no_purge (anns : List Annot) (changedFiles : List String)
    (cfg : TicsConfig) (fails : ReviewComment → Bool) :
    (∀ e ∈ (postReviewComments none anns changedFiles cfg fails).2,
        isDeleteCall e.call = false) ∧
    ((postReviewComments none anns changedFiles cfg fails).2).map (fun e => e.call) =
      ApiCall.listReviewComments ::
        ((createReviewComments anns changedFiles cfg).1).map
          (fun c => ApiCall.createReviewComment c.body c.line c.path) ∧
    (postReviewComments none anns changedFiles cfg fails).1 =
      ((createReviewComments anns changedFiles cfg).1).filter fails := by
  refine ⟨?_, ?_, postCommentsLoop_eq_filter _ _⟩
  · intro e he
    have he2 : e ∈ (Issued.mk ApiCall.listReviewComments true) ::
        ([] ++ ((createReviewComments anns changedFiles cfg).1).map
          (fun c => Issued.mk (ApiCall.createReviewComment c.body c.line c.path) false)) := he
    rcases List.mem_cons.mp he2 with rfl | h2
    · rfl
    · rw [List.nil_append] at h2
      obtain ⟨c, hc, rfl⟩ := List.mem_map.mp h2
      rfl
  · show ((Issued.mk ApiCall.listReviewComments true) ::
        ([] ++ ((createReviewComments anns changedFiles cfg).1).map
          (fun c => Issued.mk (ApiCall.createReviewComment c.body c.line c.path) false))).map
          (fun e => e.call) = _
    rw [List.nil_append, List.map_cons, List.map_map]
    rfl
